import Mathlib

/-!
Verification of the persistence and mutation layer of the volunteering-log
application, `src-tauri/src/lib.rs`. The store keeps an ordered collection
of volunteer entries in one JSON file; every operation loads the whole
file, possibly mutates the collection, and (for the mutating operations)
rewrites the whole file. We embed the data model, the serde codec at the
level of JSON values, the backing-file state, and the four exposed
commands, and prove the specified properties about them.
-/

set_option autoImplicit false

namespace VolunteeringLog

/-- An IEEE-754 binary32 value, modelled by its bit pattern. The program
never performs arithmetic or comparisons on `hours`; it only stores,
copies and serializes the value, so the bit pattern is the faithful
notion of the value and of "unchanged". -/
structure F32 where
  bits : Nat
deriving DecidableEq, Repr

/-- IEEE-754 binary32 classification: a bit pattern denotes an infinity
or a NaN exactly when its exponent field (bits 23 through 30) is all
ones; every other pattern is a finite value. -/
def F32.isFinite (x : F32) : Bool :=
  x.bits / 2 ^ 23 % 2 ^ 8 != 255

/-- `VolunteerEntry` from `src-tauri/src/lib.rs`: one volunteer-activity
record. -/
structure VolunteerEntry where
  id : String
  place : String
  date : String
  hours : F32
  notes : String
deriving DecidableEq, Repr

/-- JSON values, as produced and consumed by the serde_json codec used in
`load_entries` and `save_entries`. A JSON number that travels through the
`hours : f32` field is modelled by the `f32` it denotes: serde_json
serializes a finite `f32` through `f64` with shortest-round-trip decimal
text and parses it back through `f64` to the identical `f32`, so for the
values a number can actually carry the channel is injective and is
modelled as the identity on bit patterns. A non-finite `f32` does not
become a JSON number at all — serde_json serializes NaN and the
infinities as `null` — so that path is represented by `null`, not by
`num`. -/
inductive Json where
  | null : Json
  | bool (b : Bool) : Json
  | num (x : F32) : Json
  | str (s : String) : Json
  | arr (elems : List Json) : Json
  | obj (fields : List (String × Json)) : Json

/-- Derived `Serialize` for `VolunteerEntry`: a JSON object with the five
field names verbatim, in declaration order. serde_json writes a NaN or
infinite `hours` as JSON `null` (its `serialize_f32` emits `null` for
every non-finite float), and a finite `hours` as a number. -/
def encodeEntry (e : VolunteerEntry) : Json :=
  .obj [("id", .str e.id), ("place", .str e.place), ("date", .str e.date),
        ("hours", if e.hours.isFinite then .num e.hours else .null),
        ("notes", .str e.notes)]

/-- Serialization of `&[VolunteerEntry]`: a JSON array of the encoded
entries, in collection order. -/
def encodeEntries (es : List VolunteerEntry) : Json :=
  .arr (es.map encodeEntry)

/-- Field lookup the way the derived `Deserialize` impl performs it: a
known field bound more than once is a duplicate-field error and a missing
field is a missing-field error, both yielding `none` here. -/
def lookupUnique (fields : List (String × Json)) (k : String) : Option Json :=
  match fields.filter (fun kv => kv.fst == k) with
  | [kv] => some kv.snd
  | _ => none

/-- Deserialization of a `String` field: accepts a JSON string only. -/
def asStr : Json → Option String
  | .str s => some s
  | _ => none

/-- Deserialization of the `f32` field: accepts a JSON number only. -/
def asF32 : Json → Option F32
  | .num x => some x
  | _ => none

/-- Derived `Deserialize` for `VolunteerEntry`: accepts a JSON object
providing each of the five fields exactly once with a value of the right
type (any missing, duplicated or wrongly typed field fails the entry),
or — serde_json dispatches a `[` to the visitor's sequence path — a JSON
array of exactly five values of the field types in declaration order.
Anything else fails the entry. -/
def decodeEntry (j : Json) : Option VolunteerEntry :=
  match j with
  | .obj fields => do
    let id ← lookupUnique fields "id" >>= asStr
    let place ← lookupUnique fields "place" >>= asStr
    let date ← lookupUnique fields "date" >>= asStr
    let hours ← lookupUnique fields "hours" >>= asF32
    let notes ← lookupUnique fields "notes" >>= asStr
    pure ⟨id, place, date, hours, notes⟩
  | .arr [a, b, c, d, e] => do
    let id ← asStr a
    let place ← asStr b
    let date ← asStr c
    let hours ← asF32 d
    let notes ← asStr e
    pure ⟨id, place, date, hours, notes⟩
  | _ => none

/-- Element-by-element deserialization of a JSON array body, in order;
the first failing element fails the whole sequence. -/
def decodeEntryList : List Json → Option (List VolunteerEntry)
  | [] => some []
  | j :: js => do
    let e ← decodeEntry j
    let es ← decodeEntryList js
    pure (e :: es)

/-- Deserialization of `Vec<VolunteerEntry>`: a JSON array every element
of which decodes; any failing element fails the whole array. -/
def decodeEntries (j : Json) : Option (List VolunteerEntry) :=
  match j with
  | .arr elems => decodeEntryList elems
  | _ => none

/-- The bytes of the backing file `volunteer_log.json`, classified by the
serde_json parse: `garbage s` stands for contents that are not valid JSON
text, `json v` for contents whose parse is the value `v`. -/
inductive FileContent where
  | garbage (s : String) : FileContent
  | json (v : Json) : FileContent

/-- The state of the backing file. `unreadable` models a file that exists
but whose `fs::read_to_string` fails; `unwrap_or_default` then yields the
empty string, which is not valid JSON. The app-data directory itself is
supplied by the hosting framework and its creation failures abort the
process, outside this embedding. -/
inductive FileState where
  | absent : FileState
  | unreadable : FileState
  | present (c : FileContent) : FileState

/-- `load_entries`: if the file exists, read it (a failed read degrades to
the empty string), parse with `serde_json::from_str`, and degrade any
parse or decode failure to the empty vector via `unwrap_or_default`; if
the file does not exist, the empty vector. -/
def load_entries : FileState → List VolunteerEntry
  | .absent => []
  | .unreadable => []
  | .present (.garbage _) => []
  | .present (.json v) => (decodeEntries v).getD []

/-- `save_entries`: serializes the whole collection with
`serde_json::to_string_pretty` and rewrites the file. Serialization of
this type cannot fail; a write failure aborts the operation via `expect`
and is outside this embedding, so a save that returns has written exactly
the encoding of the collection. -/
def save_entries (es : List VolunteerEntry) : FileState :=
  .present (.json (encodeEntries es))

/-- Lowercase hexadecimal digits of `n`, most significant first, with
fuel for structural recursion; empty for `n = 0`. -/
def hexAux : Nat → Nat → List Char
  | 0, _ => []
  | fuel + 1, n =>
    if n = 0 then [] else hexAux fuel (n / 16) ++ [Nat.digitChar (n % 16)]

/-- Rust formatting of an unsigned integer in lowercase hexadecimal. -/
def hexStr (n : Nat) : String :=
  if n = 0 then "0" else String.mk (hexAux n n)

/-- `uuid_v4` from the source: the nanoseconds since the Unix epoch and
one draw of `rand_u32` are inputs from the environment (system clock and
hasher randomness); the id is their lowercase-hex renderings joined by a
hyphen. -/
def uuid_v4 (nanos rnd : Nat) : String :=
  hexStr nanos ++ "-" ++ hexStr rnd

/-- Tauri command `get_entries` (the list operation): loads and returns
the collection. The file is not written. -/
def get_entries (fs : FileState) : FileState × List VolunteerEntry :=
  (fs, load_entries fs)

/-- Tauri command `add_entry`: load, append one fresh entry built from the
inputs, save, return the updated collection. `nanos` and `rnd` are the
environment inputs consumed by this call of `uuid_v4`. -/
def add_entry (nanos rnd : Nat) (place date : String) (hours : F32)
    (notes : String) (fs : FileState) : FileState × List VolunteerEntry :=
  let entries := load_entries fs
  let entry : VolunteerEntry := ⟨uuid_v4 nanos rnd, place, date, hours, notes⟩
  let entries := entries ++ [entry]
  (save_entries entries, entries)

/-- Tauri command `delete_entry`: load, retain exactly the entries whose
id differs from the input, save, return. -/
def delete_entry (id : String) (fs : FileState) :
    FileState × List VolunteerEntry :=
  let entries := (load_entries fs).filter (fun e => e.id != id)
  (save_entries entries, entries)

/-- The in-place mutation of `update_entry`: `iter_mut().find` locates the
first entry whose id matches and its four mutable fields are overwritten;
every other entry, and the order, are untouched. -/
def updateFirst (id place date : String) (hours : F32) (notes : String) :
    List VolunteerEntry → List VolunteerEntry
  | [] => []
  | e :: es =>
    if e.id == id then
      { e with place := place, date := date, hours := hours, notes := notes } :: es
    else
      e :: updateFirst id place date hours notes es

/-- Tauri command `update_entry`: load, overwrite the first match in
place (if any), save, return the collection whether or not a match was
found. -/
def update_entry (id place date : String) (hours : F32) (notes : String)
    (fs : FileState) : FileState × List VolunteerEntry :=
  let entries := updateFirst id place date hours notes (load_entries fs)
  (save_entries entries, entries)

/-- One request to `add_entry`: the environment inputs consumed by
`uuid_v4` together with the four user-supplied fields. -/
structure AddReq where
  nanos : Nat
  rnd : Nat
  place : String
  date : String
  hours : F32
  notes : String
deriving DecidableEq, Repr

/-- The entry that `add_entry` builds from one request. -/
def entryOfReq (r : AddReq) : VolunteerEntry :=
  ⟨uuid_v4 r.nanos r.rnd, r.place, r.date, r.hours, r.notes⟩

/-- Running a finite sequence of `add_entry` calls against the backing
file, threading the file state. -/
def runAdds (reqs : List AddReq) (fs : FileState) : FileState :=
  reqs.foldl
    (fun s r => (add_entry r.nanos r.rnd r.place r.date r.hours r.notes s).fst) fs

/-! ### Codec lemmas -/

theorem decodeEntry_encodeEntry (e : VolunteerEntry)
    (hfin : e.hours.isFinite = true) :
    decodeEntry (encodeEntry e) = some e := by
  have henc : encodeEntry e =
      .obj [("id", .str e.id), ("place", .str e.place), ("date", .str e.date),
        ("hours", .num e.hours), ("notes", .str e.notes)] := by
    simp [encodeEntry, hfin]
  rw [henc]
  rfl

theorem decodeEntry_encodeEntry_of_not_finite (e : VolunteerEntry)
    (hfin : e.hours.isFinite = false) :
    decodeEntry (encodeEntry e) = none := by
  have henc : encodeEntry e =
      .obj [("id", .str e.id), ("place", .str e.place), ("date", .str e.date),
        ("hours", .null), ("notes", .str e.notes)] := by
    simp [encodeEntry, hfin]
  rw [henc]
  rfl

theorem decodeEntries_encodeEntries (es : List VolunteerEntry)
    (hfin : ∀ e ∈ es, e.hours.isFinite = true) :
    decodeEntries (encodeEntries es) = some es := by
  induction es with
  | nil => rfl
  | cons e es ih =>
    simp only [decodeEntries, encodeEntries, List.map_cons, decodeEntryList]
    rw [decodeEntry_encodeEntry e (hfin e (List.mem_cons_self e es))]
    have ih2 := ih fun e2 he2 => hfin e2 (List.mem_cons_of_mem e he2)
    simp only [decodeEntries, encodeEntries] at ih2
    simp [ih2]

theorem load_save_of_finite (es : List VolunteerEntry)
    (hfin : ∀ e ∈ es, e.hours.isFinite = true) :
    load_entries (save_entries es) = es := by
  simp [load_entries, save_entries, decodeEntries_encodeEntries es hfin]

theorem decodeEntryList_none (elems : List Json) (j : Json) (hj : j ∈ elems)
    (hnone : decodeEntry j = none) : decodeEntryList elems = none := by
  induction elems with
  | nil => cases hj
  | cons a l ih =>
    rcases List.mem_cons.mp hj with rfl | hj2
    · simp [decodeEntryList, hnone]
    · cases hca : decodeEntry a <;>
        simp [decodeEntryList, hca, ih hj2]

theorem load_save_cases (es : List VolunteerEntry) :
    load_entries (save_entries es) = es ∨ load_entries (save_entries es) = [] := by
  by_cases hfin : ∀ e ∈ es, e.hours.isFinite = true
  · exact Or.inl (load_save_of_finite es hfin)
  · refine Or.inr ?_
    push_neg at hfin
    obtain ⟨e, hes, hne⟩ := hfin
    have hfe : e.hours.isFinite = false := by simpa using hne
    have hbad : decodeEntry (encodeEntry e) = none :=
      decodeEntry_encodeEntry_of_not_finite e hfe
    simp only [load_entries, save_entries, decodeEntries, encodeEntries]
    rw [decodeEntryList_none (es.map encodeEntry) (encodeEntry e)
      (List.mem_map_of_mem encodeEntry hes) hbad]
    rfl

/-! ### Lemmas about the in-place update -/

theorem updateFirst_append (x p d : String) (h : F32) (n : String)
    (before after : List VolunteerEntry) (e : VolunteerEntry)
    (hb : ∀ b ∈ before, b.id ≠ x) (he : e.id = x) :
    updateFirst x p d h n (before ++ e :: after) =
      before ++ { e with place := p, date := d, hours := h, notes := n } :: after := by
  induction before with
  | nil => simp [updateFirst, he]
  | cons b bs ih =>
    have hbid : (b.id == x) = false :=
      beq_eq_false_iff_ne.mpr (hb b (List.mem_cons_self b bs))
    simp only [List.cons_append, updateFirst, hbid, Bool.false_eq_true,
      if_false, List.cons.injEq, true_and]
    exact ih fun b2 hb2 => hb b2 (List.mem_cons_of_mem b hb2)

theorem updateFirst_no_match (x p d : String) (h : F32) (n : String)
    (es : List VolunteerEntry) (hmiss : ∀ e ∈ es, e.id ≠ x) :
    updateFirst x p d h n es = es := by
  induction es with
  | nil => rfl
  | cons e es ih =>
    have hbid : (e.id == x) = false :=
      beq_eq_false_iff_ne.mpr (hmiss e (List.mem_cons_self e es))
    simp only [updateFirst, hbid, Bool.false_eq_true, if_false,
      List.cons.injEq, true_and]
    exact ih fun e2 he2 => hmiss e2 (List.mem_cons_of_mem e he2)

/-! ### Injectivity of the id format -/

theorem hexAux_eq_digits (fuel : Nat) :
    ∀ n : Nat, n ≤ fuel →
      hexAux fuel n = ((Nat.digits 16 n).map Nat.digitChar).reverse := by
  induction fuel with
  | zero =>
    intro n hn
    have h0 : n = 0 := Nat.le_zero.mp hn
    subst h0
    simp [hexAux]
  | succ fuel ih =>
    intro n hn
    by_cases h0 : n = 0
    · subst h0
      simp [hexAux]
    · have hdiv : n / 16 ≤ fuel := by
        have hlt : n / 16 < n := Nat.div_lt_self (Nat.pos_of_ne_zero h0) (by norm_num)
        omega
      rw [hexAux, if_neg h0, ih (n / 16) hdiv,
        Nat.digits_def' (by norm_num : (1 : ℕ) < 16) (Nat.pos_of_ne_zero h0)]
      simp

theorem digitChar_inj_lt : ∀ a < 16, ∀ b < 16,
    Nat.digitChar a = Nat.digitChar b → a = b := by decide

theorem digitChar_ne_dash : ∀ a < 16, Nat.digitChar a ≠ '-' := by decide

theorem map_digitChar_inj :
    ∀ l₁ l₂ : List Nat, (∀ x ∈ l₁, x < 16) → (∀ x ∈ l₂, x < 16) →
      l₁.map Nat.digitChar = l₂.map Nat.digitChar → l₁ = l₂ := by
  intro l₁
  induction l₁ with
  | nil =>
    intro l₂ _ _ h
    cases l₂ with
    | nil => rfl
    | cons b l => simp at h
  | cons a l ih =>
    intro l₂ h1 h2 h
    cases l₂ with
    | nil => simp at h
    | cons b l2 =>
      simp only [List.map_cons, List.cons.injEq] at h
      have hab : a = b :=
        digitChar_inj_lt a (h1 a (List.mem_cons_self a l)) b
          (h2 b (List.mem_cons_self b l2)) h.1
      have htail : l = l2 :=
        ih l2 (fun x hx => h1 x (List.mem_cons_of_mem a hx))
          (fun x hx => h2 x (List.mem_cons_of_mem b hx)) h.2
      rw [hab, htail]

theorem hexStr_data (n : Nat) :
    (hexStr n).data =
      if n = 0 then ['0'] else ((Nat.digits 16 n).map Nat.digitChar).reverse := by
  rw [hexStr]
  split
  · rfl
  · rename_i h0
    show (String.mk (hexAux n n)).data = _
    rw [hexAux_eq_digits n n le_rfl]

theorem dash_not_mem_hexStr (n : Nat) : '-' ∉ (hexStr n).data := by
  rw [hexStr_data]
  split
  · decide
  · intro hmem
    rw [List.mem_reverse] at hmem
    obtain ⟨d, hd, hch⟩ := List.mem_map.mp hmem
    exact digitChar_ne_dash d
      (Nat.digits_lt_base (by norm_num) hd) hch

theorem hexStr_data_inj (m n : Nat)
    (h : (hexStr m).data = (hexStr n).data) : m = n := by
  rw [hexStr_data, hexStr_data] at h
  by_cases hm : m = 0 <;> by_cases hn : n = 0
  · rw [hm, hn]
  · exfalso
    rw [if_pos hm, if_neg hn] at h
    have hrev : (Nat.digits 16 n).map Nat.digitChar = ['0'] := by
      have := congrArg List.reverse h
      simpa using this.symm
    have hdig : Nat.digits 16 n = [0] :=
      map_digitChar_inj _ [0]
        (fun x hx => Nat.digits_lt_base (by norm_num) hx)
        (by intro x hx; simp at hx; omega) hrev
    have hlast := Nat.getLast_digit_ne_zero 16 hn
    rw [List.getLast_congr _ (by simp) hdig] at hlast
    simp at hlast
  · exfalso
    rw [if_neg hm, if_pos hn] at h
    have hrev : (Nat.digits 16 m).map Nat.digitChar = ['0'] := by
      have := congrArg List.reverse h
      simpa using this
    have hdig : Nat.digits 16 m = [0] :=
      map_digitChar_inj _ [0]
        (fun x hx => Nat.digits_lt_base (by norm_num) hx)
        (by intro x hx; simp at hx; omega) hrev
    have hlast := Nat.getLast_digit_ne_zero 16 hm
    rw [List.getLast_congr _ (by simp) hdig] at hlast
    simp at hlast
  · rw [if_neg hm, if_neg hn] at h
    have hmap : (Nat.digits 16 m).map Nat.digitChar =
        (Nat.digits 16 n).map Nat.digitChar := by
      have := congrArg List.reverse h
      simpa using this
    have hdig : Nat.digits 16 m = Nat.digits 16 n :=
      map_digitChar_inj _ _
        (fun x hx => Nat.digits_lt_base (by norm_num) hx)
        (fun x hx => Nat.digits_lt_base (by norm_num) hx) hmap
    exact Nat.digits.injective 16 hdig

theorem append_dash_inj :
    ∀ a c : List Char, ∀ b d : List Char, '-' ∉ a → '-' ∉ c →
      a ++ '-' :: b = c ++ '-' :: d → a = c ∧ b = d := by
  intro a
  induction a with
  | nil =>
    intro c b d _ hc h
    cases c with
    | nil => simpa using h
    | cons y ys =>
      exfalso
      simp only [List.nil_append, List.cons_append, List.cons.injEq] at h
      exact hc (h.1 ▸ List.mem_cons_self y ys)
  | cons x xs ih =>
    intro c b d ha hc h
    cases c with
    | nil =>
      exfalso
      simp only [List.nil_append, List.cons_append, List.cons.injEq] at h
      exact ha (h.1 ▸ List.mem_cons_self x xs)
    | cons y ys =>
      simp only [List.cons_append, List.cons.injEq] at h
      have hxs : xs ++ '-' :: b = ys ++ '-' :: d := h.2
      have := ih ys b d (fun hm => ha (List.mem_cons_of_mem x hm))
        (fun hm => hc (List.mem_cons_of_mem y hm)) hxs
      exact ⟨by rw [h.1, this.1], this.2⟩

theorem uuid_v4_inj (t₁ r₁ t₂ r₂ : Nat)
    (h : uuid_v4 t₁ r₁ = uuid_v4 t₂ r₂) : t₁ = t₂ ∧ r₁ = r₂ := by
  have hd := congrArg String.data h
  simp only [uuid_v4, String.data_append] at hd
  have hd2 : (hexStr t₁).data ++ '-' :: (hexStr r₁).data =
      (hexStr t₂).data ++ '-' :: (hexStr r₂).data := by
    simpa [List.append_assoc] using hd
  obtain ⟨h1, h2⟩ := append_dash_inj _ _ _ _
    (dash_not_mem_hexStr t₁) (dash_not_mem_hexStr t₂) hd2
  exact ⟨hexStr_data_inj _ _ h1, hexStr_data_inj _ _ h2⟩

/-! ### Behaviour of sequences of adds

A save of a collection holding a non-finite hours value is not read back
(the next load degrades to the empty collection), so a run of adds does
not always accumulate: each step either extends the collection or
restarts it from empty. Either way, every id ever present comes from this
run's `uuid_v4` outputs or from the initial file, which is what the
uniqueness argument needs. -/

theorem runAdds_ids_nodup_aux (reqs : List AddReq) :
    ∀ fs : FileState,
      ((load_entries fs).map (fun e => e.id)).Nodup →
      (∀ e ∈ load_entries fs, ∀ r ∈ reqs, e.id ≠ uuid_v4 r.nanos r.rnd) →
      ((reqs.map (fun r => (r.nanos, r.rnd))).Nodup) →
      ((load_entries (runAdds reqs fs)).map (fun e => e.id)).Nodup := by
  induction reqs with
  | nil =>
    intro fs h1 _ _
    simpa [runAdds] using h1
  | cons r reqs ih =>
    intro fs h1 h2 h3
    rw [List.map_cons] at h3
    obtain ⟨hhead, htail⟩ := List.nodup_cons.mp h3
    have hne : ∀ r2 ∈ reqs, uuid_v4 r.nanos r.rnd ≠ uuid_v4 r2.nanos r2.rnd := by
      intro r2 hr2 hequ
      have hij := uuid_v4_inj r.nanos r.rnd r2.nanos r2.rnd hequ
      refine hhead ?_
      have hkey : (r.nanos, r.rnd) = (r2.nanos, r2.rnd) := Prod.ext hij.1 hij.2
      rw [hkey]
      exact List.mem_map_of_mem _ hr2
    rw [show runAdds (r :: reqs) fs
        = runAdds reqs (save_entries (load_entries fs ++ [entryOfReq r])) from rfl]
    rcases load_save_cases (load_entries fs ++ [entryOfReq r]) with hl | hl
    · refine ih _ ?_ ?_ htail
      · rw [hl, List.map_append]
        refine List.Nodup.append h1 (by simp) ?_
        intro a ha hb
        simp only [List.map_cons, List.map_nil, List.mem_singleton] at hb
        obtain ⟨e0, he0, rfl⟩ := List.mem_map.mp ha
        exact h2 e0 he0 r (List.mem_cons_self r reqs) hb
      · rw [hl]
        intro e he r2 hr2
        rcases List.mem_append.mp he with he1 | he2
        · exact h2 e he1 r2 (List.mem_cons_of_mem r hr2)
        · have he3 : e = entryOfReq r := List.mem_singleton.mp he2
          rw [he3]
          exact hne r2 hr2
    · refine ih _ ?_ ?_ htail
      · rw [hl]; simp
      · rw [hl]; intro e he; cases he

/-! ### Concrete entries and requests used as evaluation points -/

def entA : VolunteerEntry := ⟨"a1", "Library", "2024-01-10", ⟨0x40000000⟩, "Shelved books"⟩

def entB : VolunteerEntry := ⟨"b2", "Park", "2024-02-02", ⟨5⟩, "Cleanup"⟩

def entC1 : VolunteerEntry := ⟨"dup", "X1", "D1", ⟨1⟩, "N1"⟩

def entC2 : VolunteerEntry := ⟨"dup", "X2", "D2", ⟨2⟩, "N2"⟩

def dupReq : AddReq := ⟨0, 0, "Library", "2024-01-10", ⟨0⟩, "Shelved books"⟩

/-- An entry whose hours value is the f32 positive infinity
(bit pattern 0x7F800000). -/
def entInf : VolunteerEntry := ⟨"y", "P", "D", ⟨0x7F800000⟩, "N"⟩

/-- A backing file whose stored hours value is the f32 positive infinity.
Reachable in the real program: a stored JSON number above the largest
finite f32 (for example 3.5e38) is valid JSON, parses as a finite f64,
and the cast to f32 yields the infinity, so the entry loads
successfully. -/
def infFile : FileState :=
  .present (.json (Json.arr [Json.obj
    [("id", .str "y"), ("place", .str "P"), ("date", .str "D"),
     ("hours", .num ⟨0x7F800000⟩), ("notes", .str "N")]]))

/-! ### The claims -/

/-- C1: for every starting collection (the one loaded from the backing
file) of size n and any inputs place, date, hours, notes, `add_entry`
returns a collection of size n + 1 whose last element has exactly those
four field values and the id freshly generated by `uuid_v4` from this
call's environment inputs; all prior entries are unchanged and keep their
order. -/
theorem add_entry_spec (nanos rnd : Nat) (place date : String) (hours : F32)
    (notes : String) (fs : FileState) :
    (add_entry nanos rnd place date hours notes fs).snd =
      load_entries fs ++ [⟨uuid_v4 nanos rnd, place, date, hours, notes⟩] ∧
    (add_entry nanos rnd place date hours notes fs).snd.length =
      (load_entries fs).length + 1 ∧
    (add_entry nanos rnd place date hours notes fs).snd.getLast? =
      some ⟨uuid_v4 nanos rnd, place, date, hours, notes⟩ ∧
    (add_entry nanos rnd place date hours notes fs).snd.take
      (load_entries fs).length = load_entries fs := by
  refine ⟨rfl, ?_, ?_, ?_⟩ <;> simp [add_entry]

/-- C2 counterexample: delete is not idempotent as claimed. On a file
holding one entry with infinite hours and id "y", the first
delete("z") returns that entry and rewrites the file with its hours
serialized as JSON null; the second delete("z") then fails to decode the
file, loads the empty collection, and returns a different collection
than the first call. -/
theorem delete_entry_not_idempotent_cex :
    (delete_entry "z" ((delete_entry "z" infFile).fst)).snd ≠
      (delete_entry "z" infFile).snd := by decide

/-- C2 (amended): `delete_entry x` removes every entry whose id equals
`x` and preserves the relative order of the remaining entries (the
result is exactly the order-preserving filter of the loaded collection);
when no entry has id `x` it returns the loaded collection unchanged,
with no error; and deleting `x` again from the resulting file state
yields the same collection provided every remaining entry's hours value
is a finite f32 — a non-finite hours is rewritten as JSON null, which
the second call's load fails to decode, so idempotence does not hold
unconditionally. -/
theorem delete_entry_spec (x : String) (fs : FileState) :
    (delete_entry x fs).snd = (load_entries fs).filter (fun e => e.id != x) ∧
    (∀ e ∈ (delete_entry x fs).snd, e.id ≠ x) ∧
    ((∀ e ∈ load_entries fs, e.id ≠ x) → (delete_entry x fs).snd = load_entries fs) ∧
    ((∀ e ∈ (delete_entry x fs).snd, e.hours.isFinite = true) →
      (delete_entry x ((delete_entry x fs).fst)).snd = (delete_entry x fs).snd) := by
  refine ⟨rfl, ?_, ?_, ?_⟩
  · intro e he
    have := (List.mem_filter.mp he).2
    exact bne_iff_ne.mp this
  · intro hmiss
    exact List.filter_eq_self.mpr fun e he => bne_iff_ne.mpr (hmiss e he)
  · intro hfin
    have hfin2 : ∀ e ∈ (load_entries fs).filter (fun e => e.id != x),
        e.hours.isFinite = true := hfin
    show ((load_entries ((delete_entry x fs).fst)).filter (fun e => e.id != x)) = _
    rw [show (delete_entry x fs).fst
        = save_entries ((load_entries fs).filter (fun e => e.id != x)) from rfl,
      load_save_of_finite _ hfin2]
    exact List.filter_eq_self.mpr fun e he => (List.mem_filter.mp he).2

/-- Witness for C2 at a concrete input: deleting an id that is not
present leaves the stored collection unchanged, and on a stored
collection of finite-hours entries a second delete returns the same
collection as the first. -/
theorem delete_entry_spec_witness :
    (delete_entry "zz" (save_entries [entA])).snd =
      load_entries (save_entries [entA]) ∧
    (delete_entry "zz" ((delete_entry "zz" (save_entries [entA])).fst)).snd =
      (delete_entry "zz" (save_entries [entA])).snd :=
  ⟨(delete_entry_spec "zz" (save_entries [entA])).2.2.1 (by decide),
   (delete_entry_spec "zz" (save_entries [entA])).2.2.2 (by decide)⟩

/-- C3: if the loaded collection splits as `before ++ e :: after` with
`e` the first entry of id `x` (under the uniqueness invariant, the only
one), then `update_entry x …` overwrites exactly the four mutable fields
of `e`, keeps its id and its position, and leaves every other entry
completely unchanged. -/
theorem update_entry_hit (x p d : String) (h : F32) (n : String)
    (fs : FileState) (before after : List VolunteerEntry) (e : VolunteerEntry)
    (hsplit : load_entries fs = before ++ e :: after)
    (hfirst : ∀ b ∈ before, b.id ≠ x) (hid : e.id = x) :
    (update_entry x p d h n fs).snd =
      before ++ { e with place := p, date := d, hours := h, notes := n } :: after := by
  show updateFirst x p d h n (load_entries fs) = _
  rw [hsplit]
  exact updateFirst_append x p d h n before after e hfirst hid

/-- Witness for C3 at a concrete input: updating the id of the second of
two stored entries rewrites its four fields in place. -/
theorem update_entry_hit_witness :
    (update_entry "b2" "Museum" "2024-03-03" ⟨7⟩ "Tour"
        (save_entries [entA, entB])).snd =
      [entA] ++
        { entB with
          place := "Museum", date := "2024-03-03", hours := ⟨7⟩, notes := "Tour" }
        :: [] :=
  update_entry_hit "b2" "Museum" "2024-03-03" ⟨7⟩ "Tour"
    (save_entries [entA, entB]) [entA] [] entB (by decide) (by decide) (by decide)

/-- C4: the list operation never fails outward: a missing backing file
yields the empty collection, an unreadable file or undecodable contents
also yield the empty collection, and otherwise the stored collection is
returned in its stored order. -/
theorem load_entries_spec :
    load_entries FileState.absent = [] ∧
    load_entries FileState.unreadable = [] ∧
    (∀ s, load_entries (FileState.present (FileContent.garbage s)) = []) ∧
    (∀ v, decodeEntries v = none →
      load_entries (FileState.present (FileContent.json v)) = []) ∧
    (∀ v es, decodeEntries v = some es →
      load_entries (FileState.present (FileContent.json v)) = es) := by
  refine ⟨rfl, rfl, fun s => rfl, fun v hv => ?_, fun v es hv => ?_⟩ <;>
    simp [load_entries, hv]

/-- Witness for C4 at a concrete input: a JSON value that is not an array
decodes to nothing and loads as the empty collection. -/
theorem load_entries_spec_witness :
    load_entries (FileState.present (FileContent.json Json.null)) = [] :=
  load_entries_spec.2.2.2.1 Json.null (by decide)

/-- C5 counterexample: the round-trip is not lossless for every
collection. A collection holding one entry with infinite hours encodes
its hours as JSON null; the null then fails the f32 decode, the whole
array fails, and the load degrades to the empty collection instead of
restoring the original. -/
theorem codec_roundtrip_cex :
    decodeEntries (encodeEntries [entInf]) ≠ some [entInf] ∧
    load_entries (save_entries [entInf]) ≠ [entInf] := by decide

/-- C5 (amended): encoding any collection (including the empty one) all
of whose entries carry a finite hours value and decoding the result is
lossless: it yields the original collection in order and in every field
of every entry, and hence a save followed by a load restores the
collection exactly. For an entry with NaN or infinite hours the encoder
writes JSON null, which does not decode back, so such collections are
dropped whole by the round-trip. -/
theorem codec_roundtrip (es : List VolunteerEntry)
    (hfin : ∀ e ∈ es, e.hours.isFinite = true) :
    decodeEntries (encodeEntries es) = some es ∧
    load_entries (save_entries es) = es :=
  ⟨decodeEntries_encodeEntries es hfin, load_save_of_finite es hfin⟩

/-- Witness for the amended C5 at a concrete input: a one-entry
collection with finite hours round-trips unchanged. -/
theorem codec_roundtrip_witness :
    decodeEntries (encodeEntries [entA]) = some [entA] ∧
    load_entries (save_entries [entA]) = [entA] :=
  codec_roundtrip [entA] (by decide)

/-- C6 counterexample: the claim that every sequence of adds yields
pairwise-distinct ids is false on the code as a guarantee, because
`uuid_v4` only hashes environment inputs (clock reading and hasher
randomness) that nothing prevents from repeating: two adds that receive
the same nanosecond reading and the same random draw produce the same id
twice. -/
theorem add_ids_nodup_cex :
    ¬ ((load_entries (runAdds [dupReq, dupReq] FileState.absent)).map
        (fun e => e.id)).Nodup := by decide

/-- C6 (amended): after any finite sequence of `add_entry` calls starting
from the empty collection, all ids in the resulting collection are
pairwise distinct, provided the environment inputs consumed by `uuid_v4`
(the nanosecond clock reading paired with the random draw) are pairwise
distinct across the adds — which is what the scheme relies on in
practice. -/
theorem add_ids_nodup (reqs : List AddReq)
    (hdistinct : (reqs.map (fun r => (r.nanos, r.rnd))).Nodup) :
    ((load_entries (runAdds reqs FileState.absent)).map (fun e => e.id)).Nodup := by
  refine runAdds_ids_nodup_aux reqs FileState.absent ?_ ?_ hdistinct
  · simp [load_entries]
  · intro e he
    simp [load_entries] at he

/-- Witness for the amended C6 at a concrete input: two adds with
distinct clock readings give distinct ids. -/
theorem add_ids_nodup_witness :
    ((load_entries (runAdds [⟨0, 0, "a", "b", ⟨0⟩, "c"⟩,
        ⟨1, 0, "a", "b", ⟨0⟩, "c"⟩] FileState.absent)).map
      (fun e => e.id)).Nodup :=
  add_ids_nodup [⟨0, 0, "a", "b", ⟨0⟩, "c"⟩, ⟨1, 0, "a", "b", ⟨0⟩, "c"⟩]
    (by decide)

/-- C7 counterexample: the list operation does not rewrite the backing
file. On a missing file, `get_entries` leaves the file state untouched
(still absent), while a load-then-save cycle would have written the
encoding of the empty collection. -/
theorem get_entries_no_save_cex :
    (get_entries FileState.absent).fst ≠
      save_entries (load_entries FileState.absent) :=
  fun h => nomatch h

/-- C7 (amended): the three mutating operations — add, delete, update —
each perform a full load of the backing file followed by a full save of
the resulting (possibly unmodified) collection; the list operation
performs only the load and leaves the backing file exactly as it was. -/
theorem ops_load_save (nanos rnd : Nat) (place date x p d : String)
    (hours h : F32) (notes n : String) (fs : FileState) :
    (add_entry nanos rnd place date hours notes fs).fst =
      save_entries (load_entries fs ++
        [⟨uuid_v4 nanos rnd, place, date, hours, notes⟩]) ∧
    (delete_entry x fs).fst =
      save_entries ((load_entries fs).filter (fun e => e.id != x)) ∧
    (update_entry x p d h n fs).fst =
      save_entries (updateFirst x p d h n (load_entries fs)) ∧
    (get_entries fs).fst = fs :=
  ⟨rfl, rfl, rfl, rfl⟩

/-- C8: updating a nonexistent id leaves every existing entry unchanged,
still succeeds (the operation is total and raises no error), and still
rewrites the backing file with the encoding of the unchanged
collection. -/
theorem update_entry_miss (x p d : String) (h : F32) (n : String)
    (fs : FileState) (hmiss : ∀ e ∈ load_entries fs, e.id ≠ x) :
    (update_entry x p d h n fs).snd = load_entries fs ∧
    (update_entry x p d h n fs).fst = save_entries (load_entries fs) := by
  have hu := updateFirst_no_match x p d h n (load_entries fs) hmiss
  constructor
  · show updateFirst x p d h n (load_entries fs) = _
    exact hu
  · show save_entries (updateFirst x p d h n (load_entries fs)) = _
    rw [hu]

/-- Witness for C8 at a concrete input: updating an id that is not stored
returns the stored collection unchanged. -/
theorem update_entry_miss_witness :
    (update_entry "zz" "P" "D" ⟨1⟩ "N" (save_entries [entA])).snd =
      load_entries (save_entries [entA]) :=
  (update_entry_miss "zz" "P" "D" ⟨1⟩ "N" (save_entries [entA]) (by decide)).1

/-- C9: decoding of the backing file is all-or-nothing: if any single
element of the stored array fails to decode, the whole load yields the
empty collection, discarding every well-formed entry; a subsequent add
then persists a collection built from that empty state (the file is
rewritten to hold exactly the one new entry). -/
theorem decode_all_or_nothing (elems : List Json) (j : Json) (hj : j ∈ elems)
    (hbad : decodeEntry j = none) (nanos rnd : Nat) (place date : String)
    (hours : F32) (notes : String) :
    load_entries (FileState.present (FileContent.json (Json.arr elems))) = [] ∧
    (add_entry nanos rnd place date hours notes
        (FileState.present (FileContent.json (Json.arr elems)))).fst =
      save_entries [⟨uuid_v4 nanos rnd, place, date, hours, notes⟩] := by
  have hload :
      load_entries (FileState.present (FileContent.json (Json.arr elems))) = [] := by
    simp [load_entries, decodeEntries, decodeEntryList_none elems j hj hbad]
  refine ⟨hload, ?_⟩
  show save_entries (load_entries (FileState.present (FileContent.json (Json.arr elems)))
      ++ [⟨uuid_v4 nanos rnd, place, date, hours, notes⟩]) = _
  rw [hload, List.nil_append]

/-- Witness for C9 at a concrete input: an array containing a null
element loads as the empty collection. -/
theorem decode_all_or_nothing_witness :
    load_entries (FileState.present (FileContent.json (Json.arr [Json.null]))) = [] :=
  (decode_all_or_nothing [Json.null] Json.null
    (List.mem_singleton_self Json.null) (by decide) 0 0 "p" "d" ⟨0⟩ "n").1

/-- C10: when the uniqueness invariant is violated and the loaded
collection splits as `before ++ e :: rest` with `e` the first entry of id
`x` and another entry of id `x` inside `rest`, `update_entry` overwrites
only that first match (the duplicate inside `rest` keeps its old fields),
whereas `delete_entry` removes every matching entry. -/
theorem duplicate_ids_behavior (x p d : String) (h : F32) (n : String)
    (fs : FileState) (before rest : List VolunteerEntry) (e : VolunteerEntry)
    (hsplit : load_entries fs = before ++ e :: rest)
    (hfirst : ∀ b ∈ before, b.id ≠ x) (hid : e.id = x)
    (_hdup : ∃ e2 ∈ rest, e2.id = x) :
    (update_entry x p d h n fs).snd =
      before ++ { e with place := p, date := d, hours := h, notes := n } :: rest ∧
    (delete_entry x fs).snd = (before ++ rest).filter (fun b => b.id != x) := by
  constructor
  · show updateFirst x p d h n (load_entries fs) = _
    rw [hsplit]
    exact updateFirst_append x p d h n before rest e hfirst hid
  · show (load_entries fs).filter (fun b => b.id != x) = _
    rw [hsplit]
    have he : (e.id != x) = false := by simp [hid]
    simp [List.filter_append, List.filter_cons, he]

/-- Witness for C10 at a concrete input: with two stored entries sharing
one id, update rewrites only the first and the second keeps its old
fields. -/
theorem duplicate_ids_behavior_witness :
    (update_entry "dup" "P" "D" ⟨9⟩ "N" (save_entries [entC1, entC2])).snd =
      [] ++
        { entC1 with
          place := "P", date := "D", hours := ⟨9⟩, notes := "N" }
        :: [entC2] :=
  (duplicate_ids_behavior "dup" "P" "D" ⟨9⟩ "N" (save_entries [entC1, entC2])
    [] [entC2] entC1 (by decide) (by decide) (by decide)
    ⟨entC2, List.mem_singleton_self entC2, by decide⟩).1

end VolunteeringLog
